import Mathlib

/-!
Verification of the typed-value / dynamic-value bridge in
`asgotypes/primitive.go` (`GoPrimitive.FromTerraform5Value`,
`GoPrimitive.ToTerraform5Value`, `marshal`, `marshalObject`, `marshalTuple`,
`marshalMap`, `marshalList`, `marshalSet`).

The external `tftypes` collaborator (terraform-plugin-go v0.3, import path
`tfprotov5/tftypes`) is embedded by its documented behaviour at that
version: `Value.Is` compares type kinds (an empty aggregate type such as
`tftypes.Object{}` matches every object type), `Value.As` converts a
payload into the requested Go representation and recurses into a
`ValueConverter` such as `GoPrimitive`, and `tftypes.NewValue` stores the
given type and payload without validation.  Go's `reflect` package is
embedded through the concrete dynamic types the decoder can actually
produce (`string`, `*big.Float`, `bool`, slices and string-keyed maps).

Modelling conventions:
* `math/big.Float` payloads are arbitrary precision; they are modelled by
  `Rat`.  No claim below depends on floating-point rounding.
* Go maps are unordered; the model fixes the iteration order of every map
  as the order of its association list.  Every theorem below is either
  order-insensitive or instantiated on maps with at most one relevant key.
* A Go runtime panic (`reflect.SliceOf(nil)`, `reflect.MapOf(_, nil)`,
  `reflect.Value.Index` out of range, `reflect.Append` of an
  unassignable or invalid value, a method call on a nil `tftypes.Type`)
  is the `GoRes.crash` outcome.
* `tftypes.NewValue` performs no validation in v0.3; pairing a scalar
  descriptor with a payload of a different shape yields a `tftypes.Value`
  outside this embedding's value grammar.  That outcome is collapsed to
  `GoRes.malformed`; no claim below exercises it, every theorem's
  hypotheses keep marshalling inside the representable fragment.
-/

namespace TfBridge

/-- Type descriptors: the `tftypes.Type` implementations dispatched on by
the source.  `dynamic` is `tftypes.DynamicPseudoType`, the one `tftypes`
kind outside the closed set handled by `marshal`. -/
inductive TfType : Type where
  | string : TfType
  | number : TfType
  | bool : TfType
  | object : List (String × TfType) → TfType
  | tuple : List TfType → TfType
  | list : TfType → TfType
  | set : TfType → TfType
  | map : TfType → TfType
  | dynamic : TfType

/-- A `tftypes.Value`: a state (unknown / null / known payload) carrying its
type.  Known payloads fix the kind of the carried type, mirroring values
built by the `tftypes` package from wire data. -/
inductive TfVal : Type where
  | unknown : TfType → TfVal
  | null : TfType → TfVal
  | str : String → TfVal
  | num : Rat → TfVal
  | bool : Bool → TfVal
  | object : List (String × TfType) → List (String × TfVal) → TfVal
  | tuple : List TfType → List TfVal → TfVal
  | list : TfType → List TfVal → TfVal
  | set : TfType → List TfVal → TfVal
  | mapv : TfType → List (String × TfVal) → TfVal

/-- `Value.Type()`: the descriptor embedded in a `tftypes.Value`. -/
def TfVal.typeOf : TfVal → TfType
  | .unknown t => t
  | .null t => t
  | .str _ => .string
  | .num _ => .number
  | .bool _ => .bool
  | .object tys _ => .object tys
  | .tuple tys _ => .tuple tys
  | .list t _ => .list t
  | .set t _ => .set t
  | .mapv t _ => .map t

/-- Concrete (reflect) Go types that can appear as the dynamic type of a
decoded value: `string`, `*big.Float` (reflect kind `ptr`), `bool`,
`interface{}`, slices, and string-keyed maps. -/
inductive GoTy : Type where
  | string : GoTy
  | float : GoTy
  | bool : GoTy
  | iface : GoTy
  | slice : GoTy → GoTy
  | map : GoTy → GoTy
  deriving DecidableEq

/-- A Go `interface{}` value as produced or consumed by the bridge: `nil`,
a scalar, a slice with its static element type, or a string-keyed map with
its static value type.  (A nil slice and an empty slice of the same type
are not distinguished; no claim depends on that distinction.) -/
inductive GoVal : Type where
  | nil : GoVal
  | str : String → GoVal
  | num : Rat → GoVal
  | bool : Bool → GoVal
  | slice : GoTy → List GoVal → GoVal
  | map : GoTy → List (String × GoVal) → GoVal

/-- Whether an `interface{}` value is the nil interface (on which
`reflect.ValueOf` yields the invalid `reflect.Value`). -/
def isNilGo : GoVal → Bool
  | .nil => true
  | _ => false

/-- Outcome of a bridge operation: a result, a returned `error`, a Go
runtime panic (`crash`), or an unvalidated `tftypes.NewValue` result
outside the value grammar (`malformed`, see the module docstring). -/
inductive GoRes (α : Type) : Type where
  | ok : α → GoRes α
  | err : String → GoRes α
  | crash : GoRes α
  | malformed : GoRes α

/-- Sequencing on `GoRes`, propagating the first failure. -/
def GoRes.andThen : GoRes α → (α → GoRes β) → GoRes β
  | .ok a, f => f a
  | .err m, _ => .err m
  | .crash, _ => .crash
  | .malformed, _ => .malformed

/-- `reflect.TypeOf` on an `interface{}`: `none` for a nil interface. -/
def goTypeOf : GoVal → Option GoTy
  | .nil => none
  | .str _ => some .string
  | .num _ => some .float
  | .bool _ => some .bool
  | .slice t _ => some (.slice t)
  | .map t _ => some (.map t)

/-- The message of the error returned for unknown values (and, verbatim,
by `ToTerraform5Value` for a nil `Value` field). -/
def decodeUnknownMsg : String := "cannot decode unknown values to Go types"

/-- The element type inferred for a decoded `Map`: the reflect type of the
first decoded entry value whose interface is non-nil (`typ` stays nil past
nil entries because `reflect.TypeOf(nil)` is nil). -/
def firstTy : List (String × GoVal) → Option GoTy
  | [] => none
  | p :: ps =>
    match goTypeOf p.2 with
    | some t => some t
    | none => firstTy ps

mutual

/-- `GoPrimitive.FromTerraform5Value`: the decoder.  Returns the populated
`(Type, Value)` pair of the `GoPrimitive` on success.  Nested values are
decoded through `Value.As` into a fresh `GoPrimitive`, i.e. by recursion;
only the nested `Value` field is kept.  For `List`/`Set` the decoded
elements are rebuilt into a `reflect.MakeSlice` of the first element's
concrete type (`reflect.SliceOf` panics when that element is nil, and
`reflect.Append` panics on a nil or differently-typed element).  For `Map`
they are rebuilt into a `reflect.MakeMapWithSize` keyed by the first
non-nil concrete type (`reflect.MapOf` panics when every entry is nil, and
`SetMapIndex` deletes nil entries and panics on differently-typed ones). -/
def decode : TfVal → GoRes (Option TfType × GoVal)
  | .unknown _ => .err decodeUnknownMsg
  | .null _ => .ok (none, .nil)
  | .str s => .ok (some .string, .str s)
  | .num q => .ok (some .number, .num q)
  | .bool b => .ok (some .bool, .bool b)
  | .object tys attrs =>
    (decodeEntries attrs).andThen fun gs => .ok (some (.object tys), .map .iface gs)
  | .tuple tys elems =>
    (decodeElems elems).andThen fun gs => .ok (some (.tuple tys), .slice .iface gs)
  | .list t elems =>
    (decodeElems elems).andThen fun gs =>
      match gs with
      | [] => .ok (some (.list t), .slice .iface [])
      | g :: rest =>
        match goTypeOf g with
        | none => .crash
        | some ty =>
          if rest.all fun x => decide (goTypeOf x = some ty) then
            .ok (some (.list t), .slice ty (g :: rest))
          else .crash
  | .set t elems =>
    (decodeElems elems).andThen fun gs =>
      match gs with
      | [] => .ok (some (.set t), .slice .iface [])
      | g :: rest =>
        match goTypeOf g with
        | none => .crash
        | some ty =>
          if rest.all fun x => decide (goTypeOf x = some ty) then
            .ok (some (.set t), .slice ty (g :: rest))
          else .crash
  | .mapv t entries =>
    (decodeEntries entries).andThen fun gs =>
      match gs with
      | [] => .ok (some (.map t), .map .iface [])
      | p :: ps =>
        match firstTy (p :: ps) with
        | none => .crash
        | some ty =>
          if (p :: ps).all fun q => isNilGo q.2 || decide (goTypeOf q.2 = some ty) then
            .ok (some (.map t), .map ty ((p :: ps).filter fun q => !isNilGo q.2))
          else .crash

/-- The element-decoding loops of the `Tuple`/`List`/`Set` cases: decode
each element in order, aborting on the first failure. -/
def decodeElems : List TfVal → GoRes (List GoVal)
  | [] => .ok []
  | v :: rest =>
    (decode v).andThen fun p =>
      (decodeElems rest).andThen fun gs => .ok (p.2 :: gs)

/-- The entry-decoding loops of the `Object`/`Map` cases: decode each
entry value in order, aborting on the first failure. -/
def decodeEntries : List (String × TfVal) → GoRes (List (String × GoVal))
  | [] => .ok []
  | p :: rest =>
    (decode p.2).andThen fun q =>
      (decodeEntries rest).andThen fun gs => .ok ((p.1, q.2) :: gs)

end

/-- `reflect.Value.Kind().String()` of `reflect.ValueOf(i)` for the
`interface{}` values of this model: nil gives the invalid `reflect.Value`
("invalid"), a `*big.Float` has kind pointer ("ptr"). -/
def goKindString : GoVal → String
  | .nil => "invalid"
  | .str _ => "string"
  | .num _ => "ptr"
  | .bool _ => "bool"
  | .slice _ _ => "slice"
  | .map _ _ => "map"

/-- `reflect.Type.Kind().String()` of a static Go type: the kind reported
by `val.MapIndex(e).Kind()` is the map's static value type, so an entry of
a `map[string]interface{}` reports "interface" whatever it holds. -/
def kindName : GoTy → String
  | .string => "string"
  | .float => "ptr"
  | .bool => "bool"
  | .iface => "interface"
  | .slice _ => "slice"
  | .map _ => "map"

mutual

/-- `fmt` "%v" rendering of an `interface{}` value, used by the
unsupported-descriptor error of `marshal`.  The scalar cases are exact;
the big.Float and aggregate renderings are abbreviations (no theorem below
exercises them, every instantiation formats a string). -/
def goFmt : GoVal → String
  | .nil => "<nil>"
  | .str s => s
  | .num q => if q.den = 1 then toString q.num else toString q.num ++ "/" ++ toString (q.den : Int)
  | .bool b => cond b "true" "false"
  | .slice _ l => "[" ++ goFmtList l ++ "]"
  | .map _ l => "map[" ++ goFmtEntries l ++ "]"

/-- Space-separated "%v" rendering of slice elements. -/
def goFmtList : List GoVal → String
  | [] => ""
  | [g] => goFmt g
  | g :: rest => goFmt g ++ " " ++ goFmtList rest

/-- Space-separated "key:%v" rendering of map entries. -/
def goFmtEntries : List (String × GoVal) → String
  | [] => ""
  | [p] => p.1 ++ ":" ++ goFmt p.2
  | p :: rest => p.1 ++ ":" ++ goFmt p.2 ++ " " ++ goFmtEntries rest

end

/-- The second component of a pair is structurally smaller than the pair. -/
theorem snd_sizeOf_lt {α β : Type} [SizeOf α] [SizeOf β] (p : α × β) :
    sizeOf p.2 < sizeOf p := by
  obtain ⟨a, b⟩ := p
  simp

/-- A successful `p.AttributeTypes[k]` lookup returns an attribute type
structurally smaller than the attribute-type list. -/
theorem sizeOf_lookup {k : String} : ∀ {l : List (String × TfType)} {t : TfType},
    List.lookup k l = some t → sizeOf t < sizeOf l := by
  intro l
  induction l with
  | nil => intro t h; simp [List.lookup_nil] at h
  | cons p rest ih =>
    intro t h
    obtain ⟨k2, v⟩ := p
    rw [List.lookup_cons] at h
    cases hk : (k == k2) with
    | true =>
      rw [hk] at h
      simp at h
      subst h
      simp
      omega
    | false =>
      rw [hk] at h
      have := ih h
      simp
      omega

mutual

/-- `marshal`: dispatch over the descriptor kind.  Scalar descriptors call
`tftypes.NewValue` directly (in tftypes v0.3 a nil payload yields a Null
value, a matching payload a Known one, and any other payload an
unvalidated malformed value); composite kinds dispatch to the per-kind
routines; any other descriptor (`tftypes.DynamicPseudoType`) falls through
to the `unable to determine type %v` error, which formats the input value
`i`, not the descriptor. -/
def marshal (g : GoVal) : TfType → GoRes TfVal
  | .string =>
    match g with
    | .nil => .ok (.null .string)
    | .str s => .ok (.str s)
    | _ => .malformed
  | .number =>
    match g with
    | .nil => .ok (.null .number)
    | .num q => .ok (.num q)
    | _ => .malformed
  | .bool =>
    match g with
    | .nil => .ok (.null .bool)
    | .bool b => .ok (.bool b)
    | _ => .malformed
  | .tuple tys => marshalTuple g tys
  | .list t => marshalList g t
  | .set t => marshalSet g t
  | .map t => marshalMap g t
  | .object tys => marshalObject g tys
  | .dynamic => .err ("unable to determine type " ++ goFmt g)
termination_by ty => 3 * sizeOf ty + sizeOf g
decreasing_by
  all_goals simp_wf
  all_goals try simp_arith
  all_goals omega

/-- `marshalObject`: the input must reflect as a map; each key is looked
up in `p.AttributeTypes` and the entry marshalled against that attribute
type; results are collected and wrapped by `NewValue` under the object
type. -/
def marshalObject (g : GoVal) (tys : List (String × TfType)) : GoRes TfVal :=
  match g with
  | .map kT entries =>
    (marshalObjectGo kT tys entries).andThen fun vs => .ok (.object tys vs)
  | _ => .err ("cannot marshal kind of " ++ goKindString g)
termination_by 3 * sizeOf tys + sizeOf g + 2
decreasing_by
  all_goals simp_wf
  all_goals try simp_arith
  all_goals omega

/-- The `marshalObject` loop over the input map's keys.  A key absent from
`p.AttributeTypes` makes the nested `marshal` call dispatch on a nil
`tftypes.Type`, a panic; a nested error is replaced by
`cannot marshal kind of %s` formatting the static kind of the map's value
type (`val.MapIndex(e).Kind()`), discarding the nested error. -/
def marshalObjectGo (kT : GoTy) (tys : List (String × TfType)) :
    List (String × GoVal) → GoRes (List (String × TfVal))
  | [] => .ok []
  | p :: rest =>
    match hl : List.lookup p.1 tys with
    | none => .crash
    | some t =>
      match marshal p.2 t with
      | .ok tv => (marshalObjectGo kT tys rest).andThen fun vs => .ok ((p.1, tv) :: vs)
      | .err _ => .err ("cannot marshal kind of " ++ kindName kT)
      | .crash => .crash
      | .malformed => .malformed
termination_by entries => 3 * sizeOf tys + sizeOf entries
decreasing_by
  all_goals simp_wf
  all_goals try have hlk := sizeOf_lookup hl
  all_goals try have hp := snd_sizeOf_lt p
  all_goals try simp_arith
  all_goals omega

/-- `marshalTuple`: the input must reflect as a slice; the loop runs over
the descriptor's element types, reading `v.Index(i)` — out of range (input
shorter than the descriptor) panics, and input positions beyond the
descriptor are never read.  Nested errors propagate unmodified. -/
def marshalTuple (g : GoVal) (tys : List TfType) : GoRes TfVal :=
  match g with
  | .slice _ elems =>
    (marshalTupleGo elems tys).andThen fun vs => .ok (.tuple tys vs)
  | _ => .err ("cannot marshal kind of " ++ goKindString g)
termination_by 3 * sizeOf tys + sizeOf g + 2
decreasing_by
  all_goals simp_wf
  all_goals try simp_arith
  all_goals omega

/-- The `marshalTuple` loop: positional marshalling of the input slice
against the descriptor's element-type list. -/
def marshalTupleGo : List GoVal → List TfType → GoRes (List TfVal)
  | _, [] => .ok []
  | [], _ :: _ => .crash
  | g :: gs, t :: ts =>
    (marshal g t).andThen fun tv =>
      (marshalTupleGo gs ts).andThen fun vs => .ok (tv :: vs)
termination_by gs tys => 3 * sizeOf tys + sizeOf gs
decreasing_by
  all_goals simp_wf
  all_goals try simp_arith
  all_goals omega

/-- `marshalList`: the input must reflect as a slice; every element is
marshalled against the single element type, errors propagating
unmodified. -/
def marshalList (g : GoVal) (t : TfType) : GoRes TfVal :=
  match g with
  | .slice _ elems =>
    (marshalSeqGo t elems).andThen fun vs => .ok (.list t vs)
  | _ => .err ("cannot marshal kind of " ++ goKindString g)
termination_by 3 * sizeOf t + sizeOf g + 2
decreasing_by
  all_goals simp_wf
  all_goals try simp_arith
  all_goals omega

/-- `marshalSet`: identical to `marshalList` up to the constructed type. -/
def marshalSet (g : GoVal) (t : TfType) : GoRes TfVal :=
  match g with
  | .slice _ elems =>
    (marshalSeqGo t elems).andThen fun vs => .ok (.set t vs)
  | _ => .err ("cannot marshal kind of " ++ goKindString g)
termination_by 3 * sizeOf t + sizeOf g + 2
decreasing_by
  all_goals simp_wf
  all_goals try simp_arith
  all_goals omega

/-- The shared `marshalList`/`marshalSet` loop over the input slice. -/
def marshalSeqGo (t : TfType) : List GoVal → GoRes (List TfVal)
  | [] => .ok []
  | g :: gs =>
    (marshal g t).andThen fun tv =>
      (marshalSeqGo t gs).andThen fun vs => .ok (tv :: vs)
termination_by l => 3 * sizeOf t + sizeOf l
decreasing_by
  all_goals simp_wf
  all_goals try simp_arith
  all_goals omega

/-- `marshalMap`: the input must reflect as a map; every entry value is
marshalled against the shared element type, a nested error being replaced
by `cannot marshal kind of %s` formatting the static kind of the map's
value type, as in `marshalObject`. -/
def marshalMap (g : GoVal) (t : TfType) : GoRes TfVal :=
  match g with
  | .map kT entries =>
    (marshalMapGo t kT entries).andThen fun vs => .ok (.mapv t vs)
  | _ => .err ("cannot marshal kind of " ++ goKindString g)
termination_by 3 * sizeOf t + sizeOf g + 2
decreasing_by
  all_goals simp_wf
  all_goals try simp_arith
  all_goals omega

/-- The `marshalMap` loop over the input map's entries. -/
def marshalMapGo (t : TfType) (kT : GoTy) :
    List (String × GoVal) → GoRes (List (String × TfVal))
  | [] => .ok []
  | p :: rest =>
    match marshal p.2 t with
    | .ok tv => (marshalMapGo t kT rest).andThen fun vs => .ok ((p.1, tv) :: vs)
    | .err _ => .err ("cannot marshal kind of " ++ kindName kT)
    | .crash => .crash
    | .malformed => .malformed
termination_by entries => 3 * sizeOf t + sizeOf entries
decreasing_by
  all_goals simp_wf
  all_goals try have hp := snd_sizeOf_lt p
  all_goals try simp_arith
  all_goals omega

end

mutual

/-- Structural equality of type descriptors (the `tftypes.Type` equality
used by `Is` on fully concrete types). -/
def TfType.beq : TfType → TfType → Bool
  | .string, .string => true
  | .number, .number => true
  | .bool, .bool => true
  | .object l1, .object l2 => TfType.beqAttrs l1 l2
  | .tuple l1, .tuple l2 => TfType.beqList l1 l2
  | .list a, .list b => TfType.beq a b
  | .set a, .set b => TfType.beq a b
  | .map a, .map b => TfType.beq a b
  | .dynamic, .dynamic => true
  | _, _ => false

/-- Pairwise equality of element-type lists. -/
def TfType.beqList : List TfType → List TfType → Bool
  | [], [] => true
  | a :: l1, b :: l2 => TfType.beq a b && TfType.beqList l1 l2
  | _, _ => false

/-- Pairwise equality of attribute-type lists. -/
def TfType.beqAttrs : List (String × TfType) → List (String × TfType) → Bool
  | [], [] => true
  | a :: l1, b :: l2 => (a.1 == b.1 && TfType.beq a.2 b.2) && TfType.beqAttrs l1 l2
  | _, _ => false

end

/-- Structural induction for `TfType`, threading the motive through the
nested attribute and element lists. -/
theorem TfType.typeInd (P : TfType → Prop)
    (hstring : P .string) (hnumber : P .number) (hbool : P .bool)
    (hobject : ∀ l, (∀ p ∈ l, P (Prod.snd p)) → P (.object l))
    (htuple : ∀ l, (∀ t ∈ l, P t) → P (.tuple l))
    (hlist : ∀ t, P t → P (.list t))
    (hset : ∀ t, P t → P (.set t))
    (hmap : ∀ t, P t → P (.map t))
    (hdynamic : P .dynamic) : ∀ t, P t := by
  have key : ∀ n, ∀ t : TfType, sizeOf t ≤ n → P t := by
    intro n
    induction n with
    | zero => intro t ht; cases t <;> simp at ht
    | succ n ih =>
      intro t ht
      cases t with
      | string => exact hstring
      | number => exact hnumber
      | bool => exact hbool
      | dynamic => exact hdynamic
      | object l =>
        refine hobject l fun p hp => ih p.2 ?_
        have h1 := List.sizeOf_lt_of_mem hp
        have h2 := snd_sizeOf_lt p
        simp at ht
        omega
      | tuple l =>
        refine htuple l fun x hx => ih x ?_
        have h1 := List.sizeOf_lt_of_mem hx
        simp at ht
        omega
      | list t =>
        refine hlist t (ih t ?_)
        simp at ht
        omega
      | set t =>
        refine hset t (ih t ?_)
        simp at ht
        omega
      | map t =>
        refine hmap t (ih t ?_)
        simp at ht
        omega
  intro t
  exact key (sizeOf t) t (le_refl _)

/-- Structural induction for `TfVal`, threading the motive through the
nested attribute, element, and entry lists. -/
theorem TfVal.valInd (P : TfVal → Prop)
    (hunknown : ∀ t, P (.unknown t)) (hnull : ∀ t, P (.null t))
    (hstr : ∀ s, P (.str s)) (hnum : ∀ q, P (.num q)) (hbool : ∀ b, P (.bool b))
    (hobject : ∀ tys attrs, (∀ p ∈ attrs, P (Prod.snd p)) → P (.object tys attrs))
    (htuple : ∀ tys elems, (∀ e ∈ elems, P e) → P (.tuple tys elems))
    (hlist : ∀ t elems, (∀ e ∈ elems, P e) → P (.list t elems))
    (hset : ∀ t elems, (∀ e ∈ elems, P e) → P (.set t elems))
    (hmapv : ∀ t entries, (∀ p ∈ entries, P (Prod.snd p)) → P (.mapv t entries)) :
    ∀ v, P v := by
  have key : ∀ n, ∀ v : TfVal, sizeOf v ≤ n → P v := by
    intro n
    induction n with
    | zero => intro v hv; cases v <;> simp at hv
    | succ n ih =>
      intro v hv
      cases v with
      | unknown t => exact hunknown t
      | null t => exact hnull t
      | str s => exact hstr s
      | num q => exact hnum q
      | bool b => exact hbool b
      | object tys attrs =>
        refine hobject tys attrs fun p hp => ih p.2 ?_
        have h1 := List.sizeOf_lt_of_mem hp
        have h2 := snd_sizeOf_lt p
        simp at hv
        omega
      | tuple tys elems =>
        refine htuple tys elems fun e he => ih e ?_
        have h1 := List.sizeOf_lt_of_mem he
        simp at hv
        omega
      | list t elems =>
        refine hlist t elems fun e he => ih e ?_
        have h1 := List.sizeOf_lt_of_mem he
        simp at hv
        omega
      | set t elems =>
        refine hset t elems fun e he => ih e ?_
        have h1 := List.sizeOf_lt_of_mem he
        simp at hv
        omega
      | mapv t entries =>
        refine hmapv t entries fun p hp => ih p.2 ?_
        have h1 := List.sizeOf_lt_of_mem hp
        have h2 := snd_sizeOf_lt p
        simp at hv
        omega
  intro v
  exact key (sizeOf v) v (le_refl _)

/-- `TfType.beq` decides propositional equality. -/
theorem TfType.beq_iff : ∀ a b : TfType, (TfType.beq a b = true) ↔ a = b := by
  have auxList : ∀ (l1 l2 : List TfType),
      (∀ a ∈ l1, ∀ b, (TfType.beq a b = true) ↔ a = b) →
      ((TfType.beqList l1 l2 = true) ↔ l1 = l2) := by
    intro l1
    induction l1 with
    | nil => intro l2 _; cases l2 <;> simp [TfType.beqList]
    | cons a l1 ih =>
      intro l2 hp
      cases l2 with
      | nil => simp [TfType.beqList]
      | cons b l2 =>
        have ha := hp a (by simp)
        have hrest := ih l2 fun x hx => hp x (by simp [hx])
        simp [TfType.beqList, ha b, hrest]
  have auxAttrs : ∀ (l1 l2 : List (String × TfType)),
      (∀ p ∈ l1, ∀ b, (TfType.beq (Prod.snd p) b = true) ↔ Prod.snd p = b) →
      ((TfType.beqAttrs l1 l2 = true) ↔ l1 = l2) := by
    intro l1
    induction l1 with
    | nil => intro l2 _; cases l2 <;> simp [TfType.beqAttrs]
    | cons a l1 ih =>
      intro l2 hp
      cases l2 with
      | nil => simp [TfType.beqAttrs]
      | cons b l2 =>
        have ha := hp a (by simp)
        have hrest := ih l2 fun x hx => hp x (by simp [hx])
        simp [TfType.beqAttrs, ha b.2, hrest, Prod.ext_iff]
  intro a
  induction a using TfType.typeInd with
  | hstring => intro b; cases b <;> simp [TfType.beq]
  | hnumber => intro b; cases b <;> simp [TfType.beq]
  | hbool => intro b; cases b <;> simp [TfType.beq]
  | hdynamic => intro b; cases b <;> simp [TfType.beq]
  | hobject l hl =>
    intro b
    cases b <;> simp [TfType.beq]
    exact auxAttrs l _ hl
  | htuple l hl =>
    intro b
    cases b <;> simp [TfType.beq]
    exact auxList l _ hl
  | hlist t ht =>
    intro b
    cases b <;> simp [TfType.beq]
    exact ht _
  | hset t ht =>
    intro b
    cases b <;> simp [TfType.beq]
    exact ht _
  | hmap t ht =>
    intro b
    cases b <;> simp [TfType.beq]
    exact ht _

/-- `TfType.beqAttrs` decides equality of attribute-type lists. -/
theorem TfType.beqAttrs_iff : ∀ l1 l2 : List (String × TfType),
    (TfType.beqAttrs l1 l2 = true) ↔ l1 = l2 := by
  intro l1
  induction l1 with
  | nil => intro l2; cases l2 <;> simp [TfType.beqAttrs]
  | cons a l1 ih =>
    intro l2
    cases l2 with
    | nil => simp [TfType.beqAttrs]
    | cons b l2 =>
      simp [TfType.beqAttrs, TfType.beq_iff, ih, Prod.ext_iff]

/-- `TfType.beqList` decides equality of element-type lists. -/
theorem TfType.beqList_iff : ∀ l1 l2 : List TfType,
    (TfType.beqList l1 l2 = true) ↔ l1 = l2 := by
  intro l1
  induction l1 with
  | nil => intro l2; cases l2 <;> simp [TfType.beqList]
  | cons a l1 ih =>
    intro l2
    cases l2 with
    | nil => simp [TfType.beqList]
    | cons b l2 => simp [TfType.beqList, TfType.beq_iff, ih]

/-- Scalar descriptor kinds (`String`/`Number`/`Bool`). -/
def scalarTy : TfType → Bool
  | .string => true
  | .number => true
  | .bool => true
  | _ => false

/-- The concrete Go type the decoder produces for a well-typed, fully
known value of the given descriptor, assuming no empty collections
(`dynamic` is unreachable under `rtVT` and mapped arbitrarily). -/
def gTy : TfType → GoTy
  | .string => .string
  | .number => .float
  | .bool => .bool
  | .object _ => .map .iface
  | .tuple _ => .slice .iface
  | .list t => .slice (gTy t)
  | .set t => .slice (gTy t)
  | .map t => .map (gTy t)
  | .dynamic => .iface

mutual

/-- Round-trip precondition of a value against a descriptor: the value is
well typed for the descriptor (per the data-model invariant), fully known,
its descriptor kinds lie in the closed set, it contains no empty
`List`/`Set`/`Map`, no Null element inside a `List`/`Set`/`Map`, and every
Null attribute or tuple position has a scalar type.  Object attribute
lists are required aligned in order with the value's payload (a modelling
artifact of fixing Go map iteration order) with duplicate-free keys. -/
def rtVT : TfVal → TfType → Bool
  | .str _, .string => true
  | .num _, .number => true
  | .bool _, .bool => true
  | .object tys attrs, .object tys2 =>
    (TfType.beqAttrs tys tys2 && decide ((tys.map Prod.fst).Nodup))
      && rtAttrsO attrs tys
  | .tuple tys elems, .tuple tys2 =>
    TfType.beqList tys tys2 && rtAttrsT elems tys
  | .list t0 elems, .list t =>
    (TfType.beq t0 t && !elems.isEmpty) && rtList elems t
  | .set t0 elems, .set t =>
    (TfType.beq t0 t && !elems.isEmpty) && rtList elems t
  | .mapv t0 entries, .map t =>
    (TfType.beq t0 t && !entries.isEmpty) && rtMap entries t
  | _, _ => false
termination_by v t => 2 * sizeOf v
decreasing_by
  all_goals simp_wf
  all_goals try have hp := snd_sizeOf_lt p
  all_goals try simp_arith
  all_goals omega

/-- Round-trip precondition at an attribute or tuple position: a Null of
the same scalar type, or a round-trippable non-null value. -/
def rtAttr : TfVal → TfType → Bool
  | .null t0, t => TfType.beq t0 t && scalarTy t
  | .unknown t0, t => rtVT (.unknown t0) t
  | .str s, t => rtVT (.str s) t
  | .num q, t => rtVT (.num q) t
  | .bool b, t => rtVT (.bool b) t
  | .object tys attrs, t => rtVT (.object tys attrs) t
  | .tuple tys elems, t => rtVT (.tuple tys elems) t
  | .list t0 elems, t => rtVT (.list t0 elems) t
  | .set t0 elems, t => rtVT (.set t0 elems) t
  | .mapv t0 entries, t => rtVT (.mapv t0 entries) t
termination_by v t => 2 * sizeOf v + 1
decreasing_by
  all_goals simp_wf
  all_goals try have hp := snd_sizeOf_lt p
  all_goals try simp_arith
  all_goals omega

/-- Pairwise `rtAttr` over an object payload and attribute-type list. -/
def rtAttrsO : List (String × TfVal) → List (String × TfType) → Bool
  | [], [] => true
  | p :: rest, q :: qs => (p.1 == q.1 && rtAttr p.2 q.2) && rtAttrsO rest qs
  | _, _ => false
termination_by attrs tys => 2 * sizeOf attrs
decreasing_by
  all_goals simp_wf
  all_goals try have hp := snd_sizeOf_lt p
  all_goals try simp_arith
  all_goals omega

/-- Pairwise `rtAttr` over a tuple payload and element-type list. -/
def rtAttrsT : List TfVal → List TfType → Bool
  | [], [] => true
  | v :: rest, t :: ts => rtAttr v t && rtAttrsT rest ts
  | _, _ => false
termination_by elems tys => 2 * sizeOf elems
decreasing_by
  all_goals simp_wf
  all_goals try have hp := snd_sizeOf_lt p
  all_goals try simp_arith
  all_goals omega

/-- `rtVT` of every element of a `List`/`Set` payload (Nulls excluded). -/
def rtList : List TfVal → TfType → Bool
  | [], _ => true
  | v :: rest, t => rtVT v t && rtList rest t
termination_by l t => 2 * sizeOf l
decreasing_by
  all_goals simp_wf
  all_goals try have hp := snd_sizeOf_lt p
  all_goals try simp_arith
  all_goals omega

/-- `rtVT` of every entry value of a `Map` payload (Nulls excluded). -/
def rtMap : List (String × TfVal) → TfType → Bool
  | [], _ => true
  | p :: rest, t => rtVT p.2 t && rtMap rest t
termination_by l t => 2 * sizeOf l
decreasing_by
  all_goals simp_wf
  all_goals try have hp := snd_sizeOf_lt p
  all_goals try simp_arith
  all_goals omega

end

/-- Round-trip precondition of a value against its own embedded type. -/
def rtSafe (v : TfVal) : Bool := rtVT v v.typeOf

/-- In a duplicate-free attribute-type list, looking any member's key up
finds that member's type. -/
theorem lookup_self_of_nodup : ∀ l : List (String × TfType),
    (l.map Prod.fst).Nodup → ∀ q ∈ l, List.lookup q.1 l = some q.2 := by
  intro l
  induction l with
  | nil => intro _ q hq; simp at hq
  | cons a rest ih =>
    intro hnd q hq
    rw [List.map_cons, List.nodup_cons] at hnd
    obtain ⟨hka, hnd2⟩ := hnd
    rcases List.mem_cons.1 hq with rfl | hmem
    · rw [List.lookup_cons]
      simp
    · rw [List.lookup_cons]
      have hne : (q.1 == a.1) = false := by
        have : q.1 ∈ rest.map Prod.fst := List.mem_map_of_mem Prod.fst hmem
        have : q.1 ≠ a.1 := fun he => hka (he ▸ this)
        simp [this]
      rw [hne]
      exact ih hnd2 q hmem

/-- A value with a concrete reflect type is not the nil interface. -/
theorem goTypeOf_not_nil {g : GoVal} {t : GoTy} (h : goTypeOf g = some t) :
    isNilGo g = false := by
  cases g <;> simp_all [goTypeOf, isNilGo]

/-- `NewValue(scalar, nil)` in tftypes v0.3 yields the Null value of that
scalar type. -/
theorem marshal_nil_scalar {t : TfType} (h : scalarTy t = true) :
    marshal GoVal.nil t = .ok (.null t) := by
  cases t <;> simp_all [scalarTy, marshal]

/-- Case analysis on the attribute-position precondition. -/
theorem rtAttr_cases {v : TfVal} {t : TfType} (h : rtAttr v t = true) :
    (v = .null t ∧ scalarTy t = true) ∨ rtVT v t = true := by
  cases v with
  | null t0 =>
    left
    rw [rtAttr] at h
    rw [Bool.and_eq_true] at h
    exact ⟨by rw [(TfType.beq_iff t0 t).1 h.1], h.2⟩
  | unknown t0 => right; rw [rtAttr] at h; exact h
  | str s => right; rw [rtAttr] at h; exact h
  | num q => right; rw [rtAttr] at h; exact h
  | bool b => right; rw [rtAttr] at h; exact h
  | object tys attrs => right; rw [rtAttr] at h; exact h
  | tuple tys elems => right; rw [rtAttr] at h; exact h
  | list t0 elems => right; rw [rtAttr] at h; exact h
  | set t0 elems => right; rw [rtAttr] at h; exact h
  | mapv t0 entries => right; rw [rtAttr] at h; exact h

/-- `GoPrimitive.ToTerraform5Value`: a nil `Value` field is rejected with
the (copy-pasted) unknown-value error message; otherwise `marshal` runs on
the stored value and type (a nil stored `Type`, as left behind by decoding
a Null, would make `marshal` call a method on a nil interface: panic). -/
def toTerraform5Value (ty : Option TfType) (g : GoVal) : GoRes TfVal :=
  if isNilGo g then .err decodeUnknownMsg
  else
    match ty with
    | some t => marshal g t
    | none => .crash

/-- An attribute or tuple position satisfying `rtAttr` decodes to some
interface value that marshals back to the original value. -/
theorem rtAttr_spec {v : TfVal} {t : TfType} (h : rtAttr v t = true)
    (hIH : ∀ t2, rtVT v t2 = true →
      ∃ g, decode v = .ok (some t2, g) ∧ goTypeOf g = some (gTy t2) ∧
        marshal g t2 = .ok v) :
    ∃ g oty, decode v = .ok (oty, g) ∧ marshal g t = .ok v := by
  rcases rtAttr_cases h with ⟨rfl, hsc⟩ | hrt
  · exact ⟨.nil, none, by simp [decode], marshal_nil_scalar hsc⟩
  · obtain ⟨g, hd, _, hm⟩ := hIH t hrt
    exact ⟨g, some t, hd, hm⟩

/-- The object loops: a payload aligned with its attribute types decodes
entrywise, and `marshalObjectGo` maps the decoded entries back to the
original payload when each key's lookup in the full attribute-type list
returns the aligned type. -/
theorem objLoop_spec (tysFull : List (String × TfType)) (kT : GoTy) :
    ∀ (attrs : List (String × TfVal)) (tys : List (String × TfType)),
    rtAttrsO attrs tys = true →
    (∀ q ∈ tys, List.lookup q.1 tysFull = some q.2) →
    (∀ p ∈ attrs, ∀ t2, rtVT (Prod.snd p) t2 = true →
      ∃ g, decode (Prod.snd p) = .ok (some t2, g) ∧ goTypeOf g = some (gTy t2) ∧
        marshal g t2 = .ok (Prod.snd p)) →
    ∃ gs, decodeEntries attrs = .ok gs ∧
      marshalObjectGo kT tysFull gs = .ok attrs := by
  intro attrs
  induction attrs with
  | nil =>
    intro tys h _ _
    cases tys with
    | nil => exact ⟨[], by simp [decodeEntries], by simp [marshalObjectGo]⟩
    | cons q qs => simp [rtAttrsO] at h
  | cons p rest ih =>
    intro tys h hlk hIH
    cases tys with
    | nil => simp [rtAttrsO] at h
    | cons q qs =>
      rw [rtAttrsO, Bool.and_eq_true, Bool.and_eq_true] at h
      obtain ⟨⟨hk, hattr⟩, hrest⟩ := h
      obtain ⟨gs, hdec, hmar⟩ :=
        ih qs hrest (fun x hx => hlk x (List.mem_cons_of_mem _ hx))
          (fun x hx t2 ht2 => hIH x (List.mem_cons_of_mem _ hx) t2 ht2)
      obtain ⟨g, oty, hdE, hmE⟩ :=
        rtAttr_spec hattr (hIH p (List.mem_cons_self _ _))
      refine ⟨(p.1, g) :: gs, ?_, ?_⟩
      · simp [decodeEntries, hdE, hdec, GoRes.andThen]
      · have hk2 : p.1 = q.1 := eq_of_beq hk
        have hlkp : List.lookup p.1 tysFull = some q.2 := by
          rw [hk2]
          exact hlk q (List.mem_cons_self _ _)
        simp only [marshalObjectGo, hmar, GoRes.andThen]
        split
        · rename_i heq
          rw [hlkp] at heq
          cases heq
        · rename_i t2 heq
          rw [hlkp] at heq
          obtain rfl : q.2 = t2 := by injection heq
          simp [hmE, hmar, GoRes.andThen]

/-- The map loops: every entry decodes to a value of the element's
concrete type, and `marshalMapGo` maps the decoded entries back. -/
theorem mapLoop_spec (t : TfType) (kT : GoTy) :
    ∀ entries : List (String × TfVal),
    rtMap entries t = true →
    (∀ p ∈ entries, ∀ t2, rtVT (Prod.snd p) t2 = true →
      ∃ g, decode (Prod.snd p) = .ok (some t2, g) ∧ goTypeOf g = some (gTy t2) ∧
        marshal g t2 = .ok (Prod.snd p)) →
    ∃ gs, decodeEntries entries = .ok gs ∧
      gs.length = entries.length ∧
      (∀ q ∈ gs, goTypeOf (Prod.snd q) = some (gTy t)) ∧
      marshalMapGo t kT gs = .ok entries := by
  intro entries
  induction entries with
  | nil =>
    intro _ _
    refine ⟨[], by simp [decodeEntries], by simp, ?_, by simp [marshalMapGo]⟩
    intro q hq
    simp at hq
  | cons p rest ih =>
    intro h hIH
    rw [rtMap, Bool.and_eq_true] at h
    obtain ⟨hp, hrest⟩ := h
    obtain ⟨gs, hdec, hlen, hty, hmar⟩ :=
      ih hrest (fun x hx t2 ht2 => hIH x (List.mem_cons_of_mem _ hx) t2 ht2)
    obtain ⟨g, hdE, htyE, hmE⟩ := hIH p (List.mem_cons_self _ _) t hp
    refine ⟨(p.1, g) :: gs, ?_, ?_, ?_, ?_⟩
    · simp [decodeEntries, hdE, hdec, GoRes.andThen]
    · simp [hlen]
    · intro q hq
      rcases List.mem_cons.1 hq with rfl | hq2
      · exact htyE
      · exact hty q hq2
    · simp [marshalMapGo, hmE, hmar, GoRes.andThen]

/-- The tuple loops: a payload aligned with the element-type list decodes
elementwise, and `marshalTupleGo` maps the decoded elements back. -/
theorem tupleLoop_spec :
    ∀ (elems : List TfVal) (tys : List TfType),
    rtAttrsT elems tys = true →
    (∀ e ∈ elems, ∀ t2, rtVT e t2 = true →
      ∃ g, decode e = .ok (some t2, g) ∧ goTypeOf g = some (gTy t2) ∧
        marshal g t2 = .ok e) →
    ∃ gs, decodeElems elems = .ok gs ∧ marshalTupleGo gs tys = .ok elems := by
  intro elems
  induction elems with
  | nil =>
    intro tys h _
    cases tys with
    | nil => exact ⟨[], by simp [decodeElems], by simp [marshalTupleGo]⟩
    | cons t ts => simp [rtAttrsT] at h
  | cons v rest ih =>
    intro tys h hIH
    cases tys with
    | nil => simp [rtAttrsT] at h
    | cons t ts =>
      rw [rtAttrsT, Bool.and_eq_true] at h
      obtain ⟨hattr, hrest⟩ := h
      obtain ⟨gs, hdec, hmar⟩ :=
        ih ts hrest (fun x hx t2 ht2 => hIH x (List.mem_cons_of_mem _ hx) t2 ht2)
      obtain ⟨g, oty, hdE, hmE⟩ := rtAttr_spec hattr (hIH v (List.mem_cons_self _ _))
      refine ⟨g :: gs, ?_, ?_⟩
      · simp [decodeElems, hdE, hdec, GoRes.andThen]
      · simp [marshalTupleGo, hmE, hmar, GoRes.andThen]

/-- The list/set loops: every element decodes to a value of the element
type's concrete Go type, and `marshalSeqGo` maps the decoded elements
back. -/
theorem seqLoop_spec (t : TfType) :
    ∀ elems : List TfVal,
    rtList elems t = true →
    (∀ e ∈ elems, ∀ t2, rtVT e t2 = true →
      ∃ g, decode e = .ok (some t2, g) ∧ goTypeOf g = some (gTy t2) ∧
        marshal g t2 = .ok e) →
    ∃ gs, decodeElems elems = .ok gs ∧ gs.length = elems.length ∧
      (∀ g ∈ gs, goTypeOf g = some (gTy t)) ∧ marshalSeqGo t gs = .ok elems := by
  intro elems
  induction elems with
  | nil =>
    intro _ _
    refine ⟨[], by simp [decodeElems], by simp, ?_, by simp [marshalSeqGo]⟩
    intro g hg
    simp at hg
  | cons v rest ih =>
    intro h hIH
    rw [rtList, Bool.and_eq_true] at h
    obtain ⟨hv, hrest⟩ := h
    obtain ⟨gs, hdec, hlen, hty, hmar⟩ :=
      ih hrest (fun x hx t2 ht2 => hIH x (List.mem_cons_of_mem _ hx) t2 ht2)
    obtain ⟨g, hdE, htyE, hmE⟩ := hIH v (List.mem_cons_self _ _) t hv
    refine ⟨g :: gs, ?_, ?_, ?_, ?_⟩
    · simp [decodeElems, hdE, hdec, GoRes.andThen]
    · simp [hlen]
    · intro x hx
      rcases List.mem_cons.1 hx with rfl | hx2
      · exact htyE
      · exact hty x hx2
    · simp [marshalSeqGo, hmE, hmar, GoRes.andThen]

/-- Core round trip: a value satisfying the `rtVT` precondition against a
descriptor decodes successfully to an interface value of the descriptor's
concrete Go type, and marshalling that interface value against the same
descriptor reproduces the value exactly. -/
theorem rt_core : ∀ v : TfVal, ∀ t : TfType, rtVT v t = true →
    ∃ g, decode v = .ok (some t, g) ∧ goTypeOf g = some (gTy t) ∧
      marshal g t = .ok v := by
  intro v
  induction v using TfVal.valInd with
  | hunknown t0 => intro t h; cases t <;> simp [rtVT] at h
  | hnull t0 => intro t h; cases t <;> simp [rtVT] at h
  | hstr s =>
    intro t h
    cases t <;> simp [rtVT] at h
    exact ⟨.str s, by simp [decode], by simp [goTypeOf, gTy], by simp [marshal]⟩
  | hnum q =>
    intro t h
    cases t <;> simp [rtVT] at h
    exact ⟨.num q, by simp [decode], by simp [goTypeOf, gTy], by simp [marshal]⟩
  | hbool b =>
    intro t h
    cases t <;> simp [rtVT] at h
    exact ⟨.bool b, by simp [decode], by simp [goTypeOf, gTy], by simp [marshal]⟩
  | hobject tys attrs hIH =>
    intro t h
    cases t <;> simp [rtVT] at h
    rename_i tys2
    obtain ⟨⟨hbeq, hnodup⟩, hattrs⟩ := h
    obtain rfl : tys = tys2 := (TfType.beqAttrs_iff _ _).1 hbeq
    obtain ⟨gs, hdec, hmar⟩ :=
      objLoop_spec tys .iface attrs tys hattrs (lookup_self_of_nodup tys hnodup) hIH
    refine ⟨.map .iface gs, ?_, ?_, ?_⟩
    · simp [decode, hdec, GoRes.andThen]
    · simp [goTypeOf, gTy]
    · simp [marshal, marshalObject, hmar, GoRes.andThen]
  | htuple tys elems hIH =>
    intro t h
    cases t <;> simp [rtVT] at h
    rename_i tys2
    obtain ⟨hbeq, helems⟩ := h
    obtain rfl : tys = tys2 := (TfType.beqList_iff _ _).1 hbeq
    obtain ⟨gs, hdec, hmar⟩ := tupleLoop_spec elems tys helems hIH
    refine ⟨.slice .iface gs, ?_, ?_, ?_⟩
    · simp [decode, hdec, GoRes.andThen]
    · simp [goTypeOf, gTy]
    · simp [marshal, marshalTuple, hmar, GoRes.andThen]
  | hlist t0 elems hIH =>
    intro t h
    cases t <;> simp [rtVT] at h
    rename_i te
    obtain ⟨⟨hbeq, hne⟩, hl⟩ := h
    obtain rfl : t0 = te := (TfType.beq_iff _ _).1 hbeq
    obtain ⟨gs, hdec, hlen, hty, hmar⟩ := seqLoop_spec _ elems hl hIH
    cases elems with
    | nil => simp at hne
    | cons e es =>
      cases gs with
      | nil => simp at hlen
      | cons g grest =>
        have hg := hty g (List.mem_cons_self _ _)
        have hgr : ∀ x ∈ grest, goTypeOf x = some (gTy t0) :=
          fun x hx => hty x (List.mem_cons_of_mem _ hx)
        refine ⟨.slice (gTy t0) (g :: grest), ?_, ?_, ?_⟩
        · simp [decode, hdec, GoRes.andThen, hg, hgr]
          exact hgr
        · simp [goTypeOf, gTy]
        · simp [marshal, marshalList, hmar, GoRes.andThen]
  | hset t0 elems hIH =>
    intro t h
    cases t <;> simp [rtVT] at h
    rename_i te
    obtain ⟨⟨hbeq, hne⟩, hl⟩ := h
    obtain rfl : t0 = te := (TfType.beq_iff _ _).1 hbeq
    obtain ⟨gs, hdec, hlen, hty, hmar⟩ := seqLoop_spec _ elems hl hIH
    cases elems with
    | nil => simp at hne
    | cons e es =>
      cases gs with
      | nil => simp at hlen
      | cons g grest =>
        have hg := hty g (List.mem_cons_self _ _)
        have hgr : ∀ x ∈ grest, goTypeOf x = some (gTy t0) :=
          fun x hx => hty x (List.mem_cons_of_mem _ hx)
        refine ⟨.slice (gTy t0) (g :: grest), ?_, ?_, ?_⟩
        · simp [decode, hdec, GoRes.andThen, hg, hgr]
          exact hgr
        · simp [goTypeOf, gTy]
        · simp [marshal, marshalSet, hmar, GoRes.andThen]
  | hmapv t0 entries hIH =>
    intro t h
    cases t <;> simp [rtVT] at h
    rename_i te
    obtain ⟨⟨hbeq, hne⟩, hm⟩ := h
    obtain rfl : t0 = te := (TfType.beq_iff _ _).1 hbeq
    obtain ⟨gs, hdec, hlen, hty, hmar⟩ := mapLoop_spec t0 (gTy t0) entries hm hIH
    cases entries with
    | nil => simp at hne
    | cons p ps =>
      cases gs with
      | nil => simp at hlen
      | cons q qrest =>
        have hq := hty q (List.mem_cons_self _ _)
        have hqr : ∀ x ∈ qrest, goTypeOf (Prod.snd x) = some (gTy t0) :=
          fun x hx => hty x (List.mem_cons_of_mem _ hx)
        have hfil : ∀ a ∈ q :: qrest, (!isNilGo (Prod.snd a)) = true := by
          intro a ha
          simp [goTypeOf_not_nil (hty a ha)]
        refine ⟨.map (gTy t0) (q :: qrest), ?_, ?_, ?_⟩
        · simp [decode, hdec, GoRes.andThen, firstTy, hq, hqr,
            List.filter_eq_self.2 hfil]
          exact fun a b hmem _ => hqr (a, b) hmem
        · simp [goTypeOf, gTy]
        · simp [marshal, marshalMap, hmar, GoRes.andThen]

/-- Whether an `interface{}` value reflects as a map. -/
def isMapVal : GoVal → Bool
  | .map _ _ => true
  | _ => false

/-- Whether a descriptor kind is in the closed set handled by `marshal`:
String, Number, Bool, Object, Tuple, List, Set, Map. -/
def supportedKind : TfType → Bool
  | .dynamic => false
  | _ => true

/-- C3: decoding any Unknown-state Typed Value fails with the
unknown-value error (the `UnknownValueError` of the spec, realised as the
error with message `cannot decode unknown values to Go types`), for every
descriptor, and no dynamic result is produced. -/
theorem claim3_unknown_rejected (ty : TfType) :
    decode (.unknown ty) = .err decodeUnknownMsg := by
  simp [decode]

/-- C5: decoding a Known empty List succeeds with an empty slice of
static element type `interface{}` (untyped), and decoding a Known empty
Map succeeds with an empty `map[string]interface{}`; neither result is an
error or the nil interface. -/
theorem claim5_empty_collections (t : TfType) :
    decode (.list t []) = .ok (some (.list t), .slice .iface []) ∧
    decode (.mapv t []) = .ok (some (.map t), .map .iface []) ∧
    GoVal.slice .iface [] ≠ .nil ∧ GoVal.map .iface [] ≠ .nil := by
  refine ⟨?_, ?_, by simp, by simp⟩
  · simp [decode, decodeElems, GoRes.andThen]
  · simp [decode, decodeEntries, GoRes.andThen]

/-- C2, counterexample: encoding the nil dynamic value against the String
descriptor does not produce a Null Typed Value — `ToTerraform5Value`
returns an error (with the decoder's unknown-value message) for a nil
stored value. -/
theorem claim2_counterexample :
    toTerraform5Value (some .string) .nil = .err decodeUnknownMsg ∧
    toTerraform5Value (some .string) .nil ≠ .ok (.null .string) := by
  constructor
  · simp [toTerraform5Value, isNilGo]
  · simp [toTerraform5Value, isNilGo]

/-- C2, amended: encoding the top-level nil dynamic value fails with the
error `cannot decode unknown values to Go types` for every descriptor
(it never yields a Null or Unknown value), while decoding a Null-state
Typed Value yields dynamic nil with no type retained, and a nested nil
encoded against a scalar descriptor yields the Null value of that
descriptor. -/
theorem claim2_amended (ty : TfType) (t0 : TfType) :
    toTerraform5Value (some ty) .nil = .err decodeUnknownMsg ∧
    decode (.null t0) = .ok (none, .nil) ∧
    marshal .nil .string = .ok (.null .string) := by
  refine ⟨?_, by simp [decode], by simp [marshal]⟩
  simp [toTerraform5Value, isNilGo]

/-- C9, counterexample: encoding against the one descriptor outside the
closed set (`DynamicPseudoType`) produces the error
`unable to determine type %v` formatting the dynamic input value — the
message varies with the value and never mentions the descriptor kind. -/
theorem claim9_counterexample :
    marshal (.str "hello") .dynamic = .err "unable to determine type hello" ∧
    marshal (.str "bye") .dynamic = .err "unable to determine type bye" ∧
    ¬ List.IsInfix "DynamicPseudoType".toList
        "unable to determine type hello".toList := by
  refine ⟨by simp [marshal, goFmt], by simp [marshal, goFmt], by decide⟩

/-- C9, amended: encoding against a descriptor kind outside the closed
set {String, Number, Bool, Object, Tuple, List, Set, Map} fails with an
`UnsupportedTypeError` whose message is `unable to determine type %v`
with the dynamic input value — not the descriptor kind — interpolated. -/
theorem claim9_amended (g : GoVal) (ty : TfType) (h : supportedKind ty = false) :
    marshal g ty = .err ("unable to determine type " ++ goFmt g) := by
  cases ty <;> simp [supportedKind] at h
  simp [marshal]

/-- C9, amended, witness at the `DynamicPseudoType` descriptor and the
string "hello". -/
theorem claim9_amended_witness :
    supportedKind .dynamic = false ∧
    marshal (.str "hello") .dynamic
      = .err ("unable to determine type " ++ goFmt (.str "hello")) := by
  exact ⟨by simp [supportedKind], claim9_amended (.str "hello") .dynamic (by simp [supportedKind])⟩

/-- C10: the claim is right and the code wrong — decoding a Known List or
Set whose first element is Null panics in `reflect.SliceOf(nil)`, and
decoding a Known Map whose entries are all Null panics in
`reflect.MapOf`, instead of returning an error value as the decoder
contract (`decode(typedValue) -> (DynamicValue, error)`) requires. -/
theorem claim10_null_elements_crash :
    decode (.list .string [.null .string]) = .crash ∧
    decode (.set .string [.null .string]) = .crash ∧
    decode (.mapv .string [("k", .null .string)]) = .crash := by
  refine ⟨?_, ?_, ?_⟩ <;>
    simp [decode, decodeElems, decodeEntries, GoRes.andThen, goTypeOf, firstTy]

/-- C7: the claim is right and the code wrong — `marshalTuple` never
checks the input length against the descriptor's element-type list: an
input shorter than the descriptor panics (`v.Index(i)` out of range)
instead of failing with an `UnsupportedShapeError`, and a longer input is
silently truncated to the descriptor's arity; only a non-slice input
produces the shape error. -/
theorem claim7_tuple_length_mismatch :
    marshalTuple (.slice .iface []) [TfType.string] = .crash ∧
    marshalTuple (.slice .iface [.str "a", .str "b"]) [TfType.string]
      = .ok (.tuple [.string] [.str "a"]) ∧
    marshalTuple (.bool true) [TfType.string]
      = .err "cannot marshal kind of bool" := by
  refine ⟨?_, ?_, ?_⟩ <;>
    simp [marshalTuple, marshalTupleGo, marshal, GoRes.andThen, goKindString]

/-- C1, counterexample: the round trip fails for a Known List whose
single element is Null although its descriptor (`List(String)`) contains
no empty List/Set/Map — decode panics in `reflect.SliceOf(nil)`, so no
dynamic value exists whose re-encoding reproduces the value. -/
theorem claim1_counterexample :
    ¬ ∃ g, decode (.list .string [.null .string])
        = .ok (some ((TfVal.list .string [.null .string]).typeOf), g) ∧
      toTerraform5Value (some ((TfVal.list .string [.null .string]).typeOf)) g
        = .ok (.list .string [.null .string]) := by
  rintro ⟨g, hdec, -⟩
  simp [decode, decodeElems, GoRes.andThen, goTypeOf] at hdec

/-- C1, amended: for every Typed Value that is fully Known, well typed
for its own descriptor, with descriptor kinds in the closed set, no empty
List/Set/Map, no Null element inside any List/Set/Map, and Null
attributes or tuple positions only at scalar types (`rtSafe`), decoding
and re-encoding against the value's own descriptor reproduces the value
exactly — structurally, with scalar payloads, order, and attribute names
preserved. -/
theorem claim1_roundtrip (v : TfVal) (h : rtSafe v = true) :
    ∃ g, decode v = .ok (some v.typeOf, g) ∧
      toTerraform5Value (some v.typeOf) g = .ok v := by
  obtain ⟨g, hdec, hty, hmar⟩ := rt_core v v.typeOf h
  refine ⟨g, hdec, ?_⟩
  simp [toTerraform5Value, goTypeOf_not_nil hty, hmar]

/-- The concrete example of the spec: the Known Object
`{"name": "alice", "age": 30}` of type `Object{name: String, age: Number}`,
with a nested list of strings added to exercise a composite attribute. -/
def exampleVal : TfVal :=
  .object [("name", .string), ("age", .number), ("tags", .list .string)]
    [("name", .str "alice"), ("age", .num 30),
     ("tags", .list .string [.str "x", .str "y"])]

/-- C1, amended, witness: the round trip holds at the spec's concrete
Object example. -/
theorem claim1_roundtrip_witness :
    rtSafe exampleVal = true ∧
    ∃ g, decode exampleVal = .ok (some exampleVal.typeOf, g) ∧
      toTerraform5Value (some exampleVal.typeOf) g = .ok exampleVal := by
  have h : rtSafe exampleVal = true := by
    simp [rtSafe, exampleVal, TfVal.typeOf, rtVT, rtAttrsO, rtAttr, rtList,
      TfType.beqAttrs, TfType.beq]
  exact ⟨h, claim1_roundtrip exampleVal h⟩

/-- C4: decoding a Known non-empty List or Set first decodes all elements
(`decodeElems`), then — when every decoded element has the concrete type
of the first decoded element, which the type system guarantees for the
uniformly typed List/Set and which the code does not re-validate —
produces a homogeneous slice of exactly that concrete element type
holding all decoded elements in iteration order. -/
theorem claim4_first_element_type (t : TfType) (e : TfVal) (es : List TfVal)
    (g : GoVal) (gs : List GoVal) (ty0 : GoTy)
    (hdec : decodeElems (e :: es) = .ok (g :: gs))
    (hty : goTypeOf g = some ty0)
    (hall : ∀ x ∈ gs, goTypeOf x = some ty0) :
    decode (.list t (e :: es)) = .ok (some (.list t), .slice ty0 (g :: gs)) ∧
    decode (.set t (e :: es)) = .ok (some (.set t), .slice ty0 (g :: gs)) := by
  constructor <;> (simp [decode, hdec, GoRes.andThen, hty, hall]; try exact hall)

/-- C4, witness at the two-element string list `["a", "b"]`. -/
theorem claim4_witness :
    decodeElems [TfVal.str "a", TfVal.str "b"]
      = .ok [GoVal.str "a", GoVal.str "b"] ∧
    decode (.list .string [.str "a", .str "b"])
      = .ok (some (.list .string), .slice .string [.str "a", .str "b"]) := by
  have h1 : decodeElems [TfVal.str "a", TfVal.str "b"]
      = .ok [GoVal.str "a", GoVal.str "b"] := by
    simp [decodeElems, decode, GoRes.andThen]
  have h2 : goTypeOf (GoVal.str "a") = some .string := by simp [goTypeOf]
  have h3 : ∀ x ∈ [GoVal.str "b"], goTypeOf x = some GoTy.string := by
    intro x hx
    simp at hx
    subst hx
    simp [goTypeOf]
  exact ⟨h1, (claim4_first_element_type .string (.str "a") [.str "b"]
    (.str "a") [.str "b"] .string h1 h2 h3).1⟩

/-- The `marshalObject` loop collects, in input order, the encoding of
each input entry against the looked-up attribute type, when every key
resolves and every entry encodes. -/
theorem objGo_forall (kT : GoTy) (tys : List (String × TfType)) :
    ∀ entries : List (String × GoVal),
    (∀ p ∈ entries, ∃ t tv, List.lookup (Prod.fst p) tys = some t ∧
      marshal (Prod.snd p) t = .ok tv) →
    ∃ vals, marshalObjectGo kT tys entries = .ok vals ∧
      List.Forall₂ (fun (p : String × GoVal) (q : String × TfVal) =>
        q.1 = p.1 ∧ ∃ t, List.lookup p.1 tys = some t ∧ marshal p.2 t = .ok q.2)
        entries vals := by
  intro entries
  induction entries with
  | nil => intro _; exact ⟨[], by simp [marshalObjectGo], List.Forall₂.nil⟩
  | cons p rest ih =>
    intro h
    obtain ⟨t, tv, hlk, hm⟩ := h p (List.mem_cons_self _ _)
    obtain ⟨vals, hgo, hfa⟩ := ih (fun x hx => h x (List.mem_cons_of_mem _ hx))
    refine ⟨(p.1, tv) :: vals, ?_, ?_⟩
    · simp only [marshalObjectGo]
      split
      · rename_i heq
        rw [hlk] at heq
        cases heq
      · rename_i t2 heq
        rw [hlk] at heq
        obtain rfl : t = t2 := by injection heq
        simp [hm, hgo, GoRes.andThen]
    · exact List.Forall₂.cons ⟨rfl, t, hlk, hm⟩ hfa

/-- C6: encoding a string-keyed mapping against an Object descriptor
recursively encodes, for every attribute name of the descriptor present
in the input, the input's entry against that attribute's descriptor, and
collects the per-attribute results (in input order) into the payload of a
Known Object value.  Attributes of the descriptor with no corresponding
input entry are consistently encoded as absent — the loop runs over the
input's keys, so the missing attribute is simply omitted from the payload
and no error is raised: for descriptor `{a: String, b: Number}` and input
`{a: "x"}` the result is the Object value with payload `{a: "x"}` and no
`b` entry. -/
theorem claim6_object_attrs (kT : GoTy) (tys : List (String × TfType))
    (entries : List (String × GoVal))
    (h : ∀ p ∈ entries, ∃ t tv, List.lookup (Prod.fst p) tys = some t ∧
      marshal (Prod.snd p) t = .ok tv) :
    (∃ vals, marshalObject (.map kT entries) tys = .ok (.object tys vals) ∧
      List.Forall₂ (fun (p : String × GoVal) (q : String × TfVal) =>
        q.1 = p.1 ∧ ∃ t, List.lookup p.1 tys = some t ∧ marshal p.2 t = .ok q.2)
        entries vals) ∧
    marshalObject (.map .iface [("a", .str "x")])
        [("a", .string), ("b", .number)]
      = .ok (.object [("a", .string), ("b", .number)] [("a", .str "x")]) := by
  constructor
  · obtain ⟨vals, hgo, hfa⟩ := objGo_forall kT tys entries h
    exact ⟨vals, by simp [marshalObject, hgo, GoRes.andThen], hfa⟩
  · simp [marshalObject, marshalObjectGo, marshal, GoRes.andThen, List.lookup]

/-- C6, witness at descriptor `{a: String}` and input `{a: "x"}`. -/
theorem claim6_witness :
    (∀ p ∈ [(("a" : String), GoVal.str "x")], ∃ t tv,
      List.lookup (Prod.fst p) [(("a" : String), TfType.string)] = some t ∧
        marshal (Prod.snd p) t = .ok tv) ∧
    ∃ vals, marshalObject (.map .iface [("a", .str "x")]) [("a", .string)]
        = .ok (.object [("a", .string)] vals) ∧
      List.Forall₂ (fun (p : String × GoVal) (q : String × TfVal) =>
        q.1 = p.1 ∧ ∃ t, List.lookup p.1 [(("a" : String), TfType.string)] = some t ∧
          marshal p.2 t = .ok q.2)
        [(("a" : String), GoVal.str "x")] vals := by
  have h : ∀ p ∈ [(("a" : String), GoVal.str "x")], ∃ t tv,
      List.lookup (Prod.fst p) [(("a" : String), TfType.string)] = some t ∧
        marshal (Prod.snd p) t = .ok tv := by
    intro p hp
    simp at hp
    subst hp
    exact ⟨.string, .str "x", by simp [List.lookup], by simp [marshal]⟩
  exact ⟨h, (claim6_object_attrs .iface [("a", .string)] [("a", .str "x")] h).1⟩

/-- C8, counterexample: a nested attribute failure is not wrapped — for
descriptor `Object{a: DynamicPseudoType}` and input `{a: "x"}` the nested
encode fails with `unable to determine type x`, but `marshalObject`
discards that error and reports `cannot marshal kind of interface` (the
static kind of the input map's value type), which does not contain the
nested message or the attribute name. -/
theorem claim8_counterexample :
    marshal (.str "x") .dynamic = .err "unable to determine type x" ∧
    marshalObject (.map .iface [("a", .str "x")]) [("a", .dynamic)]
      = .err "cannot marshal kind of interface" ∧
    ¬ List.IsInfix "unable to determine type x".toList
        "cannot marshal kind of interface".toList := by
  refine ⟨by simp [marshal, goFmt], ?_, by decide⟩
  simp [marshalObject, marshalObjectGo, marshal, GoRes.andThen, List.lookup,
    goFmt, kindName]

/-- C8, amended: encoding a non-mapping dynamic value against an Object
descriptor fails with the shape error `cannot marshal kind of <kind>`;
and a nested attribute failure is reported as
`cannot marshal kind of <static kind of the map's value type>`,
discarding the nested error rather than wrapping it. -/
theorem claim8_amended (g : GoVal) (kT : GoTy) (tys : List (String × TfType))
    (k : String) (gv : GoVal) (t : TfType) (m : String)
    (hnm : isMapVal g = false)
    (hlk : List.lookup k tys = some t)
    (hm : marshal gv t = .err m) :
    marshalObject g tys = .err ("cannot marshal kind of " ++ goKindString g) ∧
    marshalObject (.map kT [(k, gv)]) tys
      = .err ("cannot marshal kind of " ++ kindName kT) := by
  constructor
  · cases g <;> simp [isMapVal] at hnm <;> simp [marshalObject, goKindString]
  · have hgo : marshalObjectGo kT tys [(k, gv)]
        = .err ("cannot marshal kind of " ++ kindName kT) := by
      simp only [marshalObjectGo]
      split
      · rename_i heq
        rw [hlk] at heq
        cases heq
      · rename_i t2 heq
        rw [hlk] at heq
        obtain rfl : t = t2 := by injection heq
        simp [hm]
    simp [marshalObject, hgo, GoRes.andThen]

/-- C8, amended, witness: a scalar input against an Object descriptor,
and the nested `DynamicPseudoType` attribute failure of the
counterexample. -/
theorem claim8_amended_witness :
    isMapVal (GoVal.str "s") = false ∧
    List.lookup "a" [(("a" : String), TfType.dynamic)] = some .dynamic ∧
    marshal (.str "x") .dynamic = .err "unable to determine type x" ∧
    marshalObject (.str "s") [(("a" : String), TfType.dynamic)]
      = .err ("cannot marshal kind of " ++ goKindString (.str "s")) ∧
    marshalObject (.map .iface [("a", .str "x")]) [(("a" : String), TfType.dynamic)]
      = .err ("cannot marshal kind of " ++ kindName .iface) := by
  have h1 : isMapVal (GoVal.str "s") = false := by simp [isMapVal]
  have h2 : List.lookup "a" [(("a" : String), TfType.dynamic)] = some .dynamic := by
    simp [List.lookup]
  have h3 : marshal (.str "x") .dynamic = .err "unable to determine type x" := by
    simp [marshal, goFmt]
  have hb := claim8_amended (.str "s") .iface [("a", .dynamic)] "a" (.str "x")
    .dynamic "unable to determine type x" h1 h2 h3
  exact ⟨h1, h2, h3, hb.1, hb.2⟩

end TfBridge
